import Mathlib

/-!
Shallow embedding of go-modrank's dependency-graph construction and scoring
engine (mod.go, modrank.go), used to check the specification's claims
against the code.

Conventions of the embedding:
* Go pointers to `GoModule` are identified with the module's `name@version`
  key within one manifest scan (the per-manifest `modCache` is keyed by that
  string and every stored node's `ModPath` equals its key), and with the
  whole structure value at scoring time (storage dedups by content hash).
* The sha256 content hash is modelled by its preimage string
  `repo/gomodpath/name/version`; the code relies only on its injectivity.
* Network lookups (module proxy, gopkg.in, go-import meta tag) and the
  process-wide resolution cache are passed in as function parameters.
* Go maps iterated with `range` have a nondeterministic order; where a claim
  depends on it the iteration order is an explicit parameter, otherwise the
  canonical insertion order is used (the claims settled on it do not depend
  on that order).
-/

deriving instance DecidableEq for Except

namespace ModRankModel

/-- splitOnCharAux is the worker of splitOnChar, carrying the reversed
current chunk. -/
def splitOnCharAux (c : Char) : List Char → List Char → List (List Char)
  | [], acc => [acc.reverse]
  | x :: xs, acc =>
    if x = c then acc.reverse :: splitOnCharAux c xs []
    else splitOnCharAux c xs (x :: acc)

/-- splitOnChar models Go's strings.Split with a one-character separator
(every separator in the scanned code is one character): it keeps empty
parts and maps the empty string to one empty part. -/
def splitOnChar (c : Char) (s : String) : List String :=
  (splitOnCharAux c s.data []).map String.mk

/-- joinWith models Go's strings.Join. -/
def joinWith (sep : String) : List String → String
  | [] => ""
  | [x] => x
  | x :: y :: xs => x ++ sep ++ joinWith sep (y :: xs)

/-- GoModule mirrors the Go struct of the same name (mod.go).  The fields
`refers` and `referers` hold the `name@version` keys of the target modules;
during graph construction they play the role of the unordered sets
`referMap`/`refererMap` (kept duplicate-free by insert-if-absent), and
`setupReference` replaces them by their sorted versions, exactly as the Go
code materialises `Refers`/`Referers` from the maps. -/
structure GoModule where
  id : String
  repository : String
  goModPath : String
  name : String
  version : String
  hostedRepository : String
  refers : List String
  referers : List String
deriving DecidableEq, Repr, Inhabited

/-- ModPath returns the "Name@Version" form (mod.go). -/
def GoModule.ModPath (m : GoModule) : String := m.name ++ "@" ++ m.version

/-- IsRoot returns whether the module has no referers (mod.go). -/
def GoModule.IsRoot (m : GoModule) : Bool := m.referers.isEmpty

/-- splitModNameAndVersion splits a token on "@" and fails unless it has
exactly two parts (mod.go). -/
def splitModNameAndVersion (tok : String) : Except String (String × String) :=
  match splitOnChar '@' tok with
  | [name, ver] => Except.ok (name, ver)
  | _ => Except.error ("unexpected go module format: " ++ tok)

/-- normalizeGoModuleName truncates a module path to its first three
path segments (mod.go). -/
def normalizeGoModuleName (name : String) : String :=
  let parts := splitOnChar '/' name
  if parts.length ≤ 3 then name else joinWith "/" (parts.take 3)

/-- getHostedRepositoryByName runs the three-step resolution cascade
(mod.go); each step is a parameter returning "" on failure, exactly the
convention the Go code tests with `repo != ""`. -/
def getHostedRepositoryByName (goProxy goPkgIn goImportMetaTag : String → String)
    (name : String) : String :=
  if goProxy name ≠ "" then goProxy name
  else if goPkgIn name ≠ "" then goPkgIn name
  else if goImportMetaTag name ≠ "" then goImportMetaTag name
  else name

/-- getHostedRepositoryByNameWithCache normalizes, consults the process-wide
cache (a parameter here; "" means a cache miss) and otherwise runs the
cascade on the normalized name (mod.go). -/
def getHostedRepositoryByNameWithCache (cache goProxy goPkgIn goImportMetaTag : String → String)
    (name : String) : String :=
  let normalized := normalizeGoModuleName name
  if cache normalized ≠ "" then cache normalized
  else getHostedRepositoryByName goProxy goPkgIn goImportMetaTag normalized

/-- hostedOffline is the resolver with an empty cache and every cascade step
failing; used to instantiate pipeline runs. -/
def hostedOffline (name : String) : String :=
  getHostedRepositoryByNameWithCache (fun _ => "") (fun _ => "") (fun _ => "") (fun _ => "") name

/-- goModuleID models the sha256 content hash by its preimage
(fmt.Sprintf "%s/%s/%s/%s" in mod.go). -/
def goModuleID (repoName goModPath name ver : String) : String :=
  repoName ++ "/" ++ goModPath ++ "/" ++ name ++ "/" ++ ver

/-- lookupCache looks a raw token up in the manifest-scoped module cache. -/
def lookupCache (cache : List (String × GoModule)) (key : String) : Option GoModule :=
  (cache.find? (fun kv => kv.1 == key)).map (fun kv => kv.2)

/-- newGoModule resolves one token against the manifest-scoped cache
(mod.go): the declared module name short-circuits first, then the cache,
then the token is split, keywords are dropped, and otherwise a fresh node
is created and cached. -/
def newGoModule (hosted : String → String) (repoName goModPath rootModName modPath : String)
    (modCache : List (String × GoModule)) :
    Except String (Option GoModule) × List (String × GoModule) :=
  if rootModName == modPath then (Except.ok none, modCache)
  else
    match lookupCache modCache modPath with
    | some node => (Except.ok (some node), modCache)
    | none =>
      match splitModNameAndVersion modPath with
      | Except.error e => (Except.error e, modCache)
      | Except.ok (name, ver) =>
        if name == "go" || name == "toolchain" then (Except.ok none, modCache)
        else
          let node : GoModule :=
            { id := goModuleID repoName goModPath name ver
              repository := repoName
              goModPath := goModPath
              name := name
              version := ver
              hostedRepository := hosted name
              refers := []
              referers := [] }
          (Except.ok (some node), modCache ++ [(modPath, node)])

/-- insertAbsent adds a key to an edge set unless already present,
modelling `map[...]struct{}{}` insertion. -/
def insertAbsent (l : List String) (x : String) : List String :=
  if x ∈ l then l else l ++ [x]

/-- updateCacheMod rewrites the cached node stored under a key. -/
def updateCacheMod (cache : List (String × GoModule)) (key : String) (f : GoModule → GoModule) :
    List (String × GoModule) :=
  cache.map (fun kv => if kv.1 == key then (kv.1, f kv.2) else kv)

/-- addReferEdge records one dependency edge in both directions
(`caller.referMap[callee]`, `callee.refererMap[caller]` in modrank.go). -/
def addReferEdge (cache : List (String × GoModule)) (callerKey calleeKey : String) :
    List (String × GoModule) :=
  updateCacheMod
    (updateCacheMod cache callerKey (fun m => { m with refers := insertAbsent m.refers calleeKey }))
    calleeKey (fun m => { m with referers := insertAbsent m.referers callerKey })

/-- resolvedModule collapses a newGoModule outcome the way the scan loop
uses it: errors are logged and the endpoint treated as absent. -/
def resolvedModule (r : Except String (Option GoModule)) : Option GoModule :=
  match r with
  | Except.ok (some m) => some m
  | _ => none

/-- processGraphLines is the line loop of scanGoModule (modrank.go): empty
lines are skipped, a line that does not split into exactly two
space-separated tokens aborts the whole manifest (result none), otherwise
both endpoints are resolved and, when both are present, linked. -/
def processGraphLines (hosted : String → String) (repoName goModPath rootModName : String) :
    List String → List (String × GoModule) → Option (List (String × GoModule))
  | [], cache => some cache
  | line :: rest, cache =>
    if line == "" then processGraphLines hosted repoName goModPath rootModName rest cache
    else
      match splitOnChar ' ' line with
      | [callerTok, calleeTok] =>
        let r1 := newGoModule hosted repoName goModPath rootModName callerTok cache
        let r2 := newGoModule hosted repoName goModPath rootModName calleeTok r1.2
        let cache3 :=
          match resolvedModule r1.1, resolvedModule r2.1 with
          | some caller, some callee => addReferEdge r2.2 caller.ModPath callee.ModPath
          | _, _ => r2.2
        processGraphLines hosted repoName goModPath rootModName rest cache3
      | _ => none

/-- insertSorted inserts into a nondecreasing list, keeping it
nondecreasing. -/
def insertSorted (x : String) : List String → List String
  | [] => [x]
  | y :: ys => if x ≤ y then x :: y :: ys else y :: insertSorted x ys

/-- sortStrings sorts a list of strings nondecreasingly; it models
sort.Slice with the `ModPath i < ModPath j` comparator (mod.go), whose
result on the duplicate-free edge sets is the unique sorted arrangement. -/
def sortStrings (l : List String) : List String := l.foldr insertSorted []

/-- setupReference materialises the sorted Refers/Referers lists from the
accumulated edge sets (mod.go). -/
def GoModule.setupReference (m : GoModule) : GoModule :=
  { m with refers := sortStrings m.refers, referers := sortStrings m.referers }

/-- scanGoModule (modrank.go), modelled from the point where the manifest
has been parsed (giving `modName`) and the dependency-graph command has
produced `out`: the output is split into lines, processed, and on success
every cached module is finalised; a malformed line yields no modules and
no error. -/
def scanGoModule (hosted : String → String) (repoName pathFromRepoRoot modName out : String) :
    Except String (List GoModule) :=
  match processGraphLines hosted repoName pathFromRepoRoot modName (splitOnChar '\n' out) [] with
  | none => Except.ok []
  | some cache => Except.ok (cache.map (fun kv => kv.2.setupReference))

/-- scanManifests is the manifest loop of scanRepo (modrank.go): each
manifest (path from repo root, declared module name, graph-command output)
is scanned and the produced modules are collected; an error from any
manifest fails the repository scan. -/
def scanManifests (hosted : String → String) (repoName : String) :
    List (String × String × String) → Except String (List GoModule)
  | [] => Except.ok []
  | (path, modName, out) :: rest =>
    match scanGoModule hosted repoName path modName out with
    | Except.error e => Except.error e
    | Except.ok mods =>
      match scanManifests hosted repoName rest with
      | Except.error e => Except.error e
      | Except.ok mods' => Except.ok (mods ++ mods')

/-- Repository carries the two attributes the scoring engine reads from
repository.Repository: its nameWithOwner identifier and its weight. -/
structure Repository where
  nameWithOwner : String
  weight : Int
deriving DecidableEq, Repr

/-- Modelled from the spec: the storage implementation (SQLite) is not part
of the scanned sources, only the GoModuleStorage interface is.  Per the
spec, findRootModules returns the persisted modules whose referer set is
empty ("a module with an empty referer set is a root"), fully hydrated;
the code's GoModule.IsRoot agrees.  The persisted graph is modelled as the
list of modules collected by the scan. -/
def FindRootGoModules (g : List GoModule) : List GoModule :=
  g.filter (fun m => m.IsRoot)

/-- lookupRef dereferences one Refers entry: within one manifest the Go
pointer denotes the unique stored module of that repository and manifest
path whose ModPath is the recorded key. -/
def lookupRef (g : List GoModule) (repoName goModPath tok : String) : Option GoModule :=
  g.find? (fun m => m.repository == repoName && m.goModPath == goModPath && m.ModPath == tok)

/-- lookupScore reads the scoredModCache, an absent module scoring 0 (the
Go zero value read by `+=`). -/
def lookupScore : List (GoModule × Int) → GoModule → Int
  | [], _ => 0
  | kv :: t, m => if kv.1 = m then kv.2 else lookupScore t m

/-- bump adds w to a module's scoredModCache entry (`cache[ref] += w`),
inserting the entry at weight w when absent. -/
def bump : List (GoModule × Int) → GoModule → Int → List (GoModule × Int)
  | [], m, w => [(m, w)]
  | kv :: t, m, w => if kv.1 = m then (kv.1, kv.2 + w) :: t else kv :: bump t m w

/-- setScore overwrites a module's scoredModCache entry
(`cache[root] = weight`). -/
def setScore : List (GoModule × Int) → GoModule → Int → List (GoModule × Int)
  | [], m, w => [(m, w)]
  | kv :: t, m, w => if kv.1 = m then (kv.1, w) :: t else kv :: setScore t m w

/-- ScoreSt is the state threaded through the scoring walk: the current
root's visited set (depMap) and the scoredModCache. -/
abbrev ScoreSt := List GoModule × List (GoModule × Int)

/-- scoreLevel is the loop of scoreGoModule (modrank.go) over one module's
Refers list: an already-visited target is skipped, otherwise the dive
action (mark visited, bump the cache, recurse one level deeper) is
applied. -/
def scoreLevel (g : List GoModule) (dive : GoModule → Int → ScoreSt → ScoreSt)
    (cur : GoModule) (w : Int) : List String → ScoreSt → ScoreSt
  | [], st => st
  | ref :: rest, st =>
    let st1 :=
      match lookupRef g cur.repository cur.goModPath ref with
      | none => st
      | some refMod => if refMod ∈ st.1 then st else dive refMod w st
    scoreLevel g dive cur w rest st1

/-- scoreRefs dispatches the walk with fuel counting the remaining nesting
depth: entering a not-yet-visited module marks it visited, bumps its cache
entry by the current weight and, fuel permitting, walks its own Refers at
weight+1.  The fuel only serves Lean's termination: the Go recursion's
depth is bounded by the number of stored modules, because each nested call
first inserts a stored module that was not yet in the visited set, so with
the fuel used below the zero-fuel cut is never taken. -/
def scoreRefs (g : List GoModule) : Nat → GoModule → Int → List String → ScoreSt → ScoreSt
  | 0, cur, w, refs, st =>
    scoreLevel g (fun refMod w st => (refMod :: st.1, bump st.2 refMod w)) cur w refs st
  | Nat.succ f, cur, w, refs, st =>
    scoreLevel g
      (fun refMod w st =>
        scoreRefs g f refMod (w + 1) refMod.refers (refMod :: st.1, bump st.2 refMod w))
      cur w refs st

/-- scoreGoModule walks one module's Refers (modrank.go). -/
def scoreGoModule (g : List GoModule) (fuel : Nat) (m : GoModule) (weight : Int) (st : ScoreSt) :
    ScoreSt :=
  scoreRefs g fuel m weight m.refers st

/-- scoreRootStep is one iteration of Score's root loop (modrank.go): a
root whose repository is not among the given repositories is skipped;
otherwise a fresh visited set seeded with the root is created, the root's
cache entry is assigned the repository weight, and the walk starts at
weight+1. -/
def scoreRootStep (g : List GoModule) (repos : List Repository)
    (c : List (GoModule × Int)) (root : GoModule) : List (GoModule × Int) :=
  match repos.find? (fun rp => rp.nameWithOwner == root.repository) with
  | none => c
  | some rp =>
    (scoreGoModule g g.length root (rp.weight + 1) ([root], setScore c root rp.weight)).2

/-- ScoreRoots folds the root loop over an explicit root list. -/
def ScoreRoots (g : List GoModule) (repos : List Repository)
    (roots : List GoModule) (c : List (GoModule × Int)) : List (GoModule × Int) :=
  roots.foldl (scoreRootStep g repos) c

/-- Score is the scoring pass of Score (modrank.go) up to the aggregation
step: it walks every stored root against the given repository set,
accumulating into the scoredModCache it receives (the field is created
once in New and never reset between calls). -/
def Score (g : List GoModule) (repos : List Repository)
    (c : List (GoModule × Int)) : List (GoModule × Int) :=
  ScoreRoots g repos (FindRootGoModules g) c

/-- GoModuleScore mirrors the Go result record. -/
structure GoModuleScore where
  name : String
  repository : String
  score : Int
deriving DecidableEq, Repr

/-- aggregateStep merges one scoredModCache entry into the name-keyed
result map: a first-seen name creates a record carrying that identity's
HostedRepository, then scores of all identities sharing the name are
summed. -/
def aggregateStep (acc : List GoModuleScore) (kv : GoModule × Int) : List GoModuleScore :=
  match acc.find? (fun r => r.name == kv.1.name) with
  | none => acc ++ [{ name := kv.1.name, repository := kv.1.hostedRepository, score := kv.2 }]
  | some _ => acc.map (fun r => if r.name == kv.1.name then { r with score := r.score + kv.2 } else r)

/-- aggregateBase folds the scoredModCache entries, taken in the given
iteration order (Go map ranges have nondeterministic order), into the
name-keyed records. -/
def aggregateBase (entries : List (GoModule × Int)) : List GoModuleScore :=
  entries.foldl aggregateStep []

/-- insertDesc inserts a record into a score-descending list, after all
records of strictly greater or equal score, matching what sort.Slice with
the strict `Score >` comparator produces here. -/
def insertDesc (x : GoModuleScore) : List GoModuleScore → List GoModuleScore
  | [] => [x]
  | y :: ys => if y.score < x.score then x :: y :: ys else y :: insertDesc x ys

/-- sortByScoreDesc sorts records by descending score. -/
def sortByScoreDesc (l : List GoModuleScore) : List GoModuleScore :=
  l.foldr insertDesc []

/-- aggregate is the tail of Score (modrank.go): entries of the
scoredModCache, in the given iteration order, are merged by name and the
records sorted by descending score. -/
def aggregate (entries : List (GoModule × Int)) : List GoModuleScore :=
  sortByScoreDesc (aggregateBase entries)

/-- findScore reads the score reported for a module name. -/
def findScore (l : List GoModuleScore) (n : String) : Option Int :=
  (l.find? (fun r => r.name == n)).map (fun r => r.score)

/-- scoreOf sums the scores of all records carrying a name (the reported
lists hold one record per name, so this is that record's score, stated in
an order-insensitive way). -/
def scoreOf (l : List GoModuleScore) (n : String) : Int :=
  ((l.filter (fun r => r.name == n)).map (fun r => r.score)).sum

/-- nameTotal sums the cache entries of all identities sharing a name. -/
def nameTotal (entries : List (GoModule × Int)) (n : String) : Int :=
  ((entries.filter (fun kv => kv.1.name == n)).map (fun kv => kv.2)).sum

/-- RepositoryStatus mirrors the Go persistence record. -/
structure RepositoryStatus where
  nameWithOwner : String
  headCommitHash : String
  existsGoMod : Bool
  isArchived : Bool
deriving DecidableEq, Repr

/-- StorageState is the storage visible to one repository's persistence
step: the stored modules keyed by repository and the stored status records
keyed by repository. -/
structure StorageState where
  goModules : List (String × List GoModule)
  repositories : List (String × RepositoryStatus)
deriving DecidableEq, Repr

/-- setAssoc writes a value under a string key, updating an existing entry
or appending a new one. -/
def setAssoc {β : Type} (l : List (String × β)) (k : String) (v : β) : List (String × β) :=
  if l.any (fun kv => kv.1 == k) then l.map (fun kv => if kv.1 == k then (kv.1, v) else kv)
  else l ++ [(k, v)]

/-- lookupAssoc reads the value stored under a string key. -/
def lookupAssoc {β : Type} (l : List (String × β)) (k : String) : Option β :=
  (l.find? (fun kv => kv.1 == k)).map (fun kv => kv.2)

/-- InsertOrUpdateGoModules is one storage call writing the collected
modules; the Bool says whether the call succeeds (each call is atomic at
the interface: on failure nothing changes). -/
def InsertOrUpdateGoModules (ok : Bool) (st : StorageState) (repoName : String)
    (mods : List GoModule) : Option StorageState :=
  if ok then some { st with goModules := setAssoc st.goModules repoName mods } else none

/-- InsertOrUpdateRepository is one storage call writing the status
record. -/
def InsertOrUpdateRepository (ok : Bool) (st : StorageState) (rs : RepositoryStatus) :
    Option StorageState :=
  if ok then some { st with repositories := setAssoc st.repositories rs.nameWithOwner rs } else none

/-- persistScanResults is the persistence tail of scanRepo (modrank.go):
first InsertOrUpdateGoModules, returning on its failure, then
InsertOrUpdateRepository with the new head.  The Bool result reports
whether scanRepo reached its successful return. -/
def persistScanResults (modsOk statusOk : Bool) (st : StorageState) (repoName : String)
    (mods : List GoModule) (rs : RepositoryStatus) : StorageState × Bool :=
  match InsertOrUpdateGoModules modsOk st repoName mods with
  | none => (st, false)
  | some st1 =>
    match InsertOrUpdateRepository statusOk st1 rs with
    | none => (st1, false)
    | some st2 => (st2, true)

/-- lookupStoredMods reads a repository's stored modules. -/
def lookupStoredMods (st : StorageState) (k : String) : Option (List GoModule) :=
  lookupAssoc st.goModules k

/-- lookupStoredRepo reads a repository's stored status. -/
def lookupStoredRepo (st : StorageState) (k : String) : Option RepositoryStatus :=
  lookupAssoc st.repositories k

/-- modsOrEmpty extracts a successful scan's module list. -/
def modsOrEmpty (r : Except String (List GoModule)) : List GoModule :=
  match r with
  | Except.ok mods => mods
  | Except.error _ => []

/-- repoW1 is the repository set of the spec's end-to-end examples: one
repository of weight 1. -/
def repoW1 : List Repository := [{ nameWithOwner := "org/repo1", weight := 1 }]

/-- chainOut is the graph-command output of the spec's first end-to-end
example. -/
def chainOut : String := "A@v1 B@v1\nB@v1 C@v1"

/-- chainMods is the module list scanned from chainOut for a manifest
declaring module A. -/
def chainMods : List GoModule :=
  modsOrEmpty (scanGoModule hostedOffline "org/repo1" "go.mod" "A" chainOut)

/-- cycleOut is the graph-command output of the spec's cyclic end-to-end
example. -/
def cycleOut : String := "A@v1 B@v1\nB@v1 A@v1"

/-- cycleMods is the module list scanned from cycleOut for a manifest
declaring module A. -/
def cycleMods : List GoModule :=
  modsOrEmpty (scanGoModule hostedOffline "org/repo1" "go.mod" "A" cycleOut)

/-- cycleModA is the A@v1 node of the cyclic example. -/
def cycleModA : GoModule := cycleMods.getD 0 default

/-- cycleModB is the B@v1 node of the cyclic example. -/
def cycleModB : GoModule := cycleMods.getD 1 default

/-- edgeOut is a one-edge graph output used for the repeated-scoring
analysis. -/
def edgeOut : String := "A@v1 B@v1"

/-- edgeMods is the module list scanned from edgeOut for a manifest
declaring module M. -/
def edgeMods : List GoModule :=
  modsOrEmpty (scanGoModule hostedOffline "org/repo1" "go.mod" "M" edgeOut)

/-- twoRepoMods is a persisted graph holding the scans of two one-edge
repositories, producing two roots of equal score and two depth-one modules
of equal score. -/
def twoRepoMods : List GoModule :=
  modsOrEmpty (scanGoModule hostedOffline "org/r1" "go.mod" "R1" "A@v1 B@v1") ++
    modsOrEmpty (scanGoModule hostedOffline "org/r2" "go.mod" "R2" "C@v1 D@v1")

/-- twoRepos is the repository set for twoRepoMods, both of weight 1. -/
def twoRepos : List Repository :=
  [{ nameWithOwner := "org/r1", weight := 1 }, { nameWithOwner := "org/r2", weight := 1 }]

/-- twoRepoCache is the scoredModCache after scoring twoRepoMods. -/
def twoRepoCache : List (GoModule × Int) := Score twoRepoMods twoRepos []

/-- twoRepoCacheRotated is the same cache entries in a different iteration
order (Go map iteration order is not deterministic). -/
def twoRepoCacheRotated : List (GoModule × Int) :=
  twoRepoCache.drop 2 ++ twoRepoCache.take 2

/-- newHeadStatus is the updated repository status scanRepo persists after
scanning chainOut at head h2. -/
def newHeadStatus : RepositoryStatus :=
  { nameWithOwner := "org/repo1", headCommitHash := "h2", existsGoMod := true,
    isArchived := false }

/-- weightOf reads the weight of the repository owning a module, 0 when
the repository is not among the given ones. -/
def weightOf (repos : List Repository) (m : GoModule) : Int :=
  match repos.find? (fun rp => rp.nameWithOwner == m.repository) with
  | some rp => rp.weight
  | none => 0

/-- cacheWF states the construction invariant of the manifest-scoped
module cache: every accumulated edge set is duplicate-free, as the Go
`map[...]struct{}{}` sets are by construction. -/
def cacheWF (cache : List (String × GoModule)) : Prop :=
  ∀ kv ∈ cache, kv.2.refers.Nodup ∧ kv.2.referers.Nodup

/-! ## Helper lemmas -/

theorem scoreLevel_skip {g : List GoModule} {dive : GoModule → Int → ScoreSt → ScoreSt}
    {cur : GoModule} {w : Int} {ref : String} {rest : List String} {st : ScoreSt}
    {refMod : GoModule} (h1 : lookupRef g cur.repository cur.goModPath ref = some refMod)
    (h2 : refMod ∈ st.1) :
    scoreLevel g dive cur w (ref :: rest) st = scoreLevel g dive cur w rest st := by
  simp [scoreLevel, h1, h2]

theorem lookupAssoc_setAssoc_self {β : Type} (l : List (String × β)) (k : String) (v : β) :
    lookupAssoc (setAssoc l k v) k = some v := by
  induction l with
  | nil => simp [setAssoc, lookupAssoc]
  | cons a t ih =>
    by_cases hak : a.1 = k
    · simp [setAssoc, lookupAssoc, List.any_cons, hak]
    · have hbeq : (a.1 == k) = false := by simp [hak]
      by_cases hat : t.any (fun kv => kv.1 == k)
      · simp only [setAssoc, List.any_cons, hbeq, Bool.false_or, hat, if_true,
          List.map_cons, lookupAssoc, List.find?_cons, hbeq]
        have := ih
        simp only [setAssoc, hat, if_true, lookupAssoc] at this
        simpa [hbeq] using this
      · simp only [setAssoc, List.any_cons, hbeq, Bool.false_or, hat, if_false,
          List.cons_append, lookupAssoc, List.find?_cons, hbeq]
        have := ih
        simp only [setAssoc, hat, if_false, lookupAssoc] at this
        simpa [hbeq] using this

theorem insertSorted_perm (x : String) (l : List String) :
    (insertSorted x l).Perm (x :: l) := by
  induction l with
  | nil => rfl
  | cons y ys ih =>
    by_cases h : x ≤ y
    · simp [insertSorted, h]
    · simp only [insertSorted, h, if_false]
      exact (ih.cons y).trans (List.Perm.swap x y ys)

theorem sortStrings_perm (l : List String) : (sortStrings l).Perm l := by
  induction l with
  | nil => rfl
  | cons x xs ih =>
    simpa [sortStrings] using ((insertSorted_perm x (sortStrings xs)).trans (ih.cons x))

theorem insertSorted_pairwise_le (x : String) (l : List String)
    (h : l.Pairwise (· ≤ ·)) : (insertSorted x l).Pairwise (· ≤ ·) := by
  induction l with
  | nil => simp [insertSorted]
  | cons y ys ih =>
    rcases List.pairwise_cons.mp h with ⟨hy, hys⟩
    by_cases hle : x ≤ y
    · simp only [insertSorted, hle, if_true]
      refine List.pairwise_cons.mpr ⟨?_, h⟩
      intro z hz
      rcases List.mem_cons.mp hz with rfl | hz
      · exact hle
      · exact le_trans hle (hy z hz)
    · simp only [insertSorted, hle, if_false]
      refine List.pairwise_cons.mpr ⟨?_, ih hys⟩
      intro z hz
      rcases List.mem_cons.mp ((insertSorted_perm x ys).mem_iff.mp hz) with rfl | hz
      · exact le_of_not_le hle
      · exact hy z hz

theorem sortStrings_pairwise_le (l : List String) :
    (sortStrings l).Pairwise (· ≤ ·) := by
  induction l with
  | nil => simp [sortStrings]
  | cons x xs ih => simpa [sortStrings] using insertSorted_pairwise_le x (sortStrings xs) ih

theorem sortStrings_pairwise_lt (l : List String) (h : l.Nodup) :
    (sortStrings l).Pairwise (· < ·) := by
  have hnd : (sortStrings l).Nodup := (sortStrings_perm l).nodup_iff.mpr h
  have := (sortStrings_pairwise_le l).and hnd
  exact this.imp (fun hab => lt_of_le_of_ne hab.1 hab.2)

theorem nodup_insertAbsent (l : List String) (x : String) (h : l.Nodup) :
    (insertAbsent l x).Nodup := by
  by_cases hx : x ∈ l
  · simpa [insertAbsent, hx] using h
  · simp only [insertAbsent, hx, if_false]
    simp [List.nodup_append, h, List.disjoint_singleton, hx]

theorem cacheWF_newGoModule (hosted : String → String)
    (repoName goModPath rootModName tok : String) (c : List (String × GoModule))
    (hwf : cacheWF c) : cacheWF (newGoModule hosted repoName goModPath rootModName tok c).2 := by
  unfold newGoModule
  split
  · exact hwf
  · split
    · exact hwf
    · split
      · exact hwf
      · split
        · exact hwf
        · intro kv hkv
          rcases List.mem_append.mp hkv with h1 | h2
          · exact hwf kv h1
          · rcases List.mem_singleton.mp h2 with rfl
            exact ⟨List.nodup_nil, List.nodup_nil⟩

theorem cacheWF_updateCacheMod (c : List (String × GoModule)) (key : String)
    (f : GoModule → GoModule)
    (hf : ∀ m, m.refers.Nodup ∧ m.referers.Nodup → (f m).refers.Nodup ∧ (f m).referers.Nodup)
    (hwf : cacheWF c) : cacheWF (updateCacheMod c key f) := by
  intro kv hkv
  rcases List.mem_map.mp hkv with ⟨kv0, hkv0, heq⟩
  by_cases hk : kv0.1 == key
  · rw [← heq]
    simp only [hk, if_true]
    exact hf kv0.2 (hwf kv0 hkv0)
  · rw [← heq]
    simp only [hk, Bool.false_eq_true, if_false]
    exact hwf kv0 hkv0

theorem cacheWF_addReferEdge (c : List (String × GoModule)) (k1 k2 : String)
    (hwf : cacheWF c) : cacheWF (addReferEdge c k1 k2) := by
  unfold addReferEdge
  refine cacheWF_updateCacheMod _ _ _ ?_ (cacheWF_updateCacheMod _ _ _ ?_ hwf)
  · intro m hm
    exact ⟨hm.1, nodup_insertAbsent _ _ hm.2⟩
  · intro m hm
    exact ⟨nodup_insertAbsent _ _ hm.1, hm.2⟩

theorem cacheWF_processGraphLines (hosted : String → String)
    (repoName goModPath rootModName : String) :
    ∀ (lines : List String) (c c' : List (String × GoModule)), cacheWF c →
      processGraphLines hosted repoName goModPath rootModName lines c = some c' →
      cacheWF c' := by
  intro lines
  induction lines with
  | nil =>
    intro c c' hwf hp
    simp only [processGraphLines, Option.some.injEq] at hp
    exact hp ▸ hwf
  | cons x rest ih =>
    intro c c' hwf hp
    by_cases hx : (x == "")
    · simp only [processGraphLines, hx, if_true] at hp
      exact ih c c' hwf hp
    · simp only [processGraphLines, hx, Bool.false_eq_true, if_false] at hp
      rcases hsp : splitOnChar ' ' x with _ | ⟨a, _ | ⟨b, _ | ⟨d, t⟩⟩⟩ <;> rw [hsp] at hp
      · simp at hp
      · simp at hp
      · have hwf1 := cacheWF_newGoModule hosted repoName goModPath rootModName a c hwf
        have hwf2 := cacheWF_newGoModule hosted repoName goModPath rootModName b _ hwf1
        refine ih _ c' ?_ hp
        cases hr1 : resolvedModule (newGoModule hosted repoName goModPath rootModName a c).1 with
        | none => simpa [hr1] using hwf2
        | some caller =>
          cases hr2 : resolvedModule (newGoModule hosted repoName goModPath rootModName b
              (newGoModule hosted repoName goModPath rootModName a c).2).1 with
          | none => simpa [hr1, hr2] using hwf2
          | some callee => simpa [hr1, hr2] using cacheWF_addReferEdge _ _ _ hwf2
      · simp at hp

theorem processGraphLines_malformed (hosted : String → String)
    (repoName goModPath rootModName : String) :
    ∀ (lines : List String) (cache : List (String × GoModule)) (l : String),
      l ∈ lines → l ≠ "" → (∀ a b, splitOnChar ' ' l ≠ [a, b]) →
      processGraphLines hosted repoName goModPath rootModName lines cache = none := by
  intro lines
  induction lines with
  | nil => intro cache l hl; cases hl
  | cons x rest ih =>
    intro cache l hl hne hsplit
    rcases List.mem_cons.mp hl with rfl | hmem
    · have hbeq : (l == "") = false := by simp [hne]
      rcases hsp : splitOnChar ' ' l with _ | ⟨a, _ | ⟨b, _ | ⟨c, t⟩⟩⟩
      · simp [processGraphLines, hbeq, hsp]
      · simp [processGraphLines, hbeq, hsp]
      · exact absurd hsp (hsplit a b)
      · simp [processGraphLines, hbeq, hsp]
    · by_cases hx : x = ""
      · subst hx
        simpa [processGraphLines] using ih cache l hmem hne hsplit
      · have hbeq : (x == "") = false := by simp [hx]
        rcases hsp : splitOnChar ' ' x with _ | ⟨a, _ | ⟨b, _ | ⟨c, t⟩⟩⟩
        · simp [processGraphLines, hbeq, hsp]
        · simp [processGraphLines, hbeq, hsp]
        · simp only [processGraphLines, hbeq, Bool.false_eq_true, if_false, hsp]
          exact ih _ l hmem hne hsplit
        · simp [processGraphLines, hbeq, hsp]

theorem length_ne_two_of_ne_pair {l : List String} (h : l.length ≠ 2) :
    ∀ a b, l ≠ [a, b] := by
  intro a b hl
  subst hl
  simp at h

theorem scanManifests_cons_empty (hosted : String → String) (repoName : String)
    (m : String × String × String) (post : List (String × String × String))
    (hm : scanGoModule hosted repoName m.1 m.2.1 m.2.2 = Except.ok []) :
    ∀ pre, scanManifests hosted repoName (pre ++ m :: post) =
      scanManifests hosted repoName (pre ++ post) := by
  intro pre
  induction pre with
  | nil =>
    rcases m with ⟨p, mn, out⟩
    simp only [List.nil_append, scanManifests, hm]
    cases hpost : scanManifests hosted repoName post <;> simp
  | cons q pre' ih =>
    rcases q with ⟨p, mn, out⟩
    simp only [List.cons_append, scanManifests]
    cases hq : scanGoModule hosted repoName p mn out <;> simp [ih]

theorem insertDesc_perm (x : GoModuleScore) (l : List GoModuleScore) :
    (insertDesc x l).Perm (x :: l) := by
  induction l with
  | nil => rfl
  | cons y ys ih =>
    by_cases h : y.score < x.score
    · simp [insertDesc, h]
    · simp only [insertDesc, h, if_false]
      exact (ih.cons y).trans (List.Perm.swap x y ys)

theorem sortByScoreDesc_perm (l : List GoModuleScore) : (sortByScoreDesc l).Perm l := by
  induction l with
  | nil => rfl
  | cons x xs ih =>
    simpa [sortByScoreDesc] using
      ((insertDesc_perm x (sortByScoreDesc xs)).trans (ih.cons x))

theorem insertDesc_pairwise (x : GoModuleScore) (l : List GoModuleScore)
    (h : l.Pairwise (fun a b => b.score ≤ a.score)) :
    (insertDesc x l).Pairwise (fun a b => b.score ≤ a.score) := by
  induction l with
  | nil => simp [insertDesc]
  | cons y ys ih =>
    rcases List.pairwise_cons.mp h with ⟨hy, hys⟩
    by_cases hlt : y.score < x.score
    · simp only [insertDesc, hlt, if_true]
      refine List.pairwise_cons.mpr ⟨?_, h⟩
      intro z hz
      rcases List.mem_cons.mp hz with rfl | hz
      · exact le_of_lt hlt
      · exact le_trans (hy z hz) (le_of_lt hlt)
    · simp only [insertDesc, hlt, if_false]
      refine List.pairwise_cons.mpr ⟨?_, ih hys⟩
      intro z hz
      rcases List.mem_cons.mp ((insertDesc_perm x ys).mem_iff.mp hz) with rfl | hz
      · exact le_of_not_lt hlt
      · exact hy z hz

theorem sortByScoreDesc_pairwise (l : List GoModuleScore) :
    (sortByScoreDesc l).Pairwise (fun a b => b.score ≤ a.score) := by
  induction l with
  | nil => simp [sortByScoreDesc]
  | cons x xs ih => simpa [sortByScoreDesc] using insertDesc_pairwise x (sortByScoreDesc xs) ih

theorem scoreOf_perm {l1 l2 : List GoModuleScore} (h : l1.Perm l2) (n : String) :
    scoreOf l1 n = scoreOf l2 n := by
  unfold scoreOf
  exact ((h.filter (fun r => r.name == n)).map (fun r => r.score)).sum_eq

theorem nameTotal_perm {e1 e2 : List (GoModule × Int)} (h : e1.Perm e2) (n : String) :
    nameTotal e1 n = nameTotal e2 n := by
  unfold nameTotal
  exact ((h.filter (fun kv => kv.1.name == n)).map (fun kv => kv.2)).sum_eq

theorem scoreOf_cons (x : GoModuleScore) (t : List GoModuleScore) (n : String) :
    scoreOf (x :: t) n = (if x.name == n then x.score else 0) + scoreOf t n := by
  by_cases h : x.name == n <;> simp [scoreOf, List.filter_cons, h]

theorem scoreOf_append_single (l : List GoModuleScore) (x : GoModuleScore) (n : String) :
    scoreOf (l ++ [x]) n = scoreOf l n + (if x.name == n then x.score else 0) := by
  by_cases h : x.name == n <;> simp [scoreOf, List.filter_append, List.filter_cons, h]

theorem nameTotal_cons (kv : GoModule × Int) (e : List (GoModule × Int)) (n : String) :
    nameTotal (kv :: e) n = (if kv.1.name == n then kv.2 else 0) + nameTotal e n := by
  by_cases h : kv.1.name == n <;> simp [nameTotal, List.filter_cons, h]

theorem scoreOf_mapAdd (nm : String) (s : Int) (n : String) :
    ∀ l : List GoModuleScore, (l.map (fun r => r.name)).Nodup →
      (∃ r, r ∈ l ∧ (r.name == nm) = true) →
      scoreOf (l.map (fun r => if r.name == nm then { r with score := r.score + s } else r)) n =
        scoreOf l n + (if nm == n then s else 0) := by
  intro l
  induction l with
  | nil => intro _ hmem; rcases hmem with ⟨r, hr, _⟩; cases hr
  | cons a t ih =>
    intro hnd hmem
    rcases List.nodup_cons.mp hnd with ⟨hna, hnt⟩
    cases ha : (a.name == nm) with
    | true =>
      have hanm : a.name = nm := beq_iff_eq.mp ha
      have htid : t.map (fun r => if r.name == nm then { r with score := r.score + s } else r)
          = t := by
        rw [show t = t.map id from (List.map_id t).symm]
        rw [List.map_map]
        apply List.map_congr_left
        intro r hr
        have hrn : r.name ≠ nm := fun hrnm =>
          hna (List.mem_map.mpr ⟨r, hr, hrnm.trans hanm.symm⟩)
        simp [hrn]
      simp only [List.map_cons, ha, if_true, htid]
      rw [scoreOf_cons, scoreOf_cons]
      cases hn : (a.name == n) with
      | true =>
        have hnmn : (nm == n) = true := beq_iff_eq.mpr (hanm ▸ beq_iff_eq.mp hn)
        simp [hn, hnmn]
        omega
      | false =>
        have hann : a.name ≠ n := by simpa using hn
        have hnmn : (nm == n) = false :=
          beq_eq_false_iff_ne.mpr (fun h => hann (hanm.trans h))
        simp [hn, hnmn]
    | false =>
      rcases hmem with ⟨r, hr, hrb⟩
      rcases List.mem_cons.mp hr with rfl | hrt
      · rw [hrb] at ha; cases ha
      · simp only [List.map_cons, ha, Bool.false_eq_true, if_false]
        rw [scoreOf_cons, scoreOf_cons, ih hnt ⟨r, hrt, hrb⟩]
        omega

theorem aggregateStep_scoreOf (acc : List GoModuleScore) (kv : GoModule × Int) (n : String)
    (hnd : (acc.map (fun r => r.name)).Nodup) :
    scoreOf (aggregateStep acc kv) n = scoreOf acc n + (if kv.1.name == n then kv.2 else 0) := by
  unfold aggregateStep
  cases hf : acc.find? (fun r => r.name == kv.1.name) with
  | none => simpa using scoreOf_append_single acc _ n
  | some r0 =>
    have hmem := List.mem_of_find?_eq_some hf
    have hpred := List.find?_some hf
    simpa using scoreOf_mapAdd kv.1.name kv.2 n acc hnd ⟨r0, hmem, hpred⟩

theorem aggregateStep_nodup (acc : List GoModuleScore) (kv : GoModule × Int)
    (hnd : (acc.map (fun r => r.name)).Nodup) :
    ((aggregateStep acc kv).map (fun r => r.name)).Nodup := by
  unfold aggregateStep
  cases hf : acc.find? (fun r => r.name == kv.1.name) with
  | none =>
    have habs : ∀ r ∈ acc, r.name ≠ kv.1.name := by
      intro r hr hcon
      have := List.find?_eq_none.mp hf r hr
      simp [hcon] at this
    simp only [List.map_append, List.map_cons, List.map_nil]
    rw [List.nodup_append]
    refine ⟨hnd, List.nodup_singleton _, ?_⟩
    intro a ha hb
    rcases List.mem_map.mp ha with ⟨r, hr, rfl⟩
    exact habs r hr (List.mem_singleton.mp hb)
  | some r0 =>
    simp only [List.map_map]
    have hmm : ((fun r => r.name) ∘ fun r =>
        if r.name == kv.1.name then { r with score := r.score + kv.2 } else r) =
        fun (r : GoModuleScore) => r.name := by
      funext (r : GoModuleScore)
      by_cases h : r.name = kv.1.name <;> simp [Function.comp, h]
    rw [hmm]
    exact hnd

theorem foldl_aggregateStep_nodup :
    ∀ (e : List (GoModule × Int)) (acc : List GoModuleScore),
      (acc.map (fun r => r.name)).Nodup →
      ((e.foldl aggregateStep acc).map (fun r => r.name)).Nodup := by
  intro e
  induction e with
  | nil => intro acc h; simpa using h
  | cons kv e' ih =>
    intro acc h
    simpa using ih (aggregateStep acc kv) (aggregateStep_nodup acc kv h)

theorem foldl_aggregateStep_scoreOf (n : String) :
    ∀ (e : List (GoModule × Int)) (acc : List GoModuleScore),
      (acc.map (fun r => r.name)).Nodup →
      scoreOf (e.foldl aggregateStep acc) n = scoreOf acc n + nameTotal e n := by
  intro e
  induction e with
  | nil => intro acc _; simp [nameTotal]
  | cons kv e' ih =>
    intro acc h
    simp only [List.foldl_cons]
    rw [ih (aggregateStep acc kv) (aggregateStep_nodup acc kv h),
      aggregateStep_scoreOf acc kv n h, nameTotal_cons]
    omega

theorem aggregate_scoreOf (e : List (GoModule × Int)) (n : String) :
    scoreOf (aggregate e) n = nameTotal e n := by
  unfold aggregate aggregateBase
  rw [scoreOf_perm (sortByScoreDesc_perm _) n,
    foldl_aggregateStep_scoreOf n e [] (by simp)]
  simp [scoreOf]

theorem lookupScore_bump (mm : GoModule) (w : Int) (m : GoModule) :
    ∀ c : List (GoModule × Int),
      lookupScore (bump c mm w) m = lookupScore c m + (if m = mm then w else 0) := by
  intro c
  induction c with
  | nil =>
    by_cases h : m = mm
    · subst h; simp [bump, lookupScore]
    · have h' : mm ≠ m := fun hh => h hh.symm
      simp [bump, lookupScore, h, h']
  | cons kv t ih =>
    by_cases hk : kv.1 = mm
    · simp only [bump, hk, if_true]
      by_cases hm : mm = m
      · subst hm; simp [lookupScore, hk]
      · have h1 : kv.1 ≠ m := hk ▸ hm
        have h2 : ¬ m = mm := fun hh => hm hh.symm
        simp [lookupScore, h1, h2, hm]
    · simp only [bump, hk, if_false]
      by_cases hm : kv.1 = m
      · have h2 : ¬ m = mm := fun hh => hk (hm.trans hh)
        simp [lookupScore, hm, h2]
      · simp [lookupScore, hm, ih]

theorem lookupScore_setScore (mm : GoModule) (w : Int) (m : GoModule) :
    ∀ c : List (GoModule × Int),
      lookupScore (setScore c mm w) m = if m = mm then w else lookupScore c m := by
  intro c
  induction c with
  | nil =>
    by_cases h : m = mm
    · subst h; simp [setScore, lookupScore]
    · have h' : mm ≠ m := fun hh => h hh.symm
      simp [setScore, lookupScore, h, h']
  | cons kv t ih =>
    by_cases hk : kv.1 = mm
    · simp only [setScore, hk, if_true]
      by_cases hm : mm = m
      · subst hm; simp [lookupScore, hk]
      · have h1 : kv.1 ≠ m := hk ▸ hm
        have h2 : ¬ m = mm := fun hh => hm hh.symm
        simp [lookupScore, h1, h2, hm]
    · simp only [setScore, hk, if_false]
      by_cases hm : kv.1 = m
      · have h2 : ¬ m = mm := fun hh => hk (hm.trans hh)
        simp [lookupScore, hm, h2]
      · simp [lookupScore, hm, ih]

theorem lookupRef_mem {g : List GoModule} {r p t : String} {m : GoModule}
    (h : lookupRef g r p t = some m) : m ∈ g :=
  List.mem_of_find?_eq_some h

theorem scoreLevel_dep_cache_free (g : List GoModule)
    (dive : GoModule → Int → ScoreSt → ScoreSt)
    (hdep : ∀ refMod w dep c1 c2, (dive refMod w (dep, c1)).1 = (dive refMod w (dep, c2)).1) :
    ∀ (refs : List String) (cur : GoModule) (w : Int) (dep : List GoModule)
      (c1 c2 : List (GoModule × Int)),
      (scoreLevel g dive cur w refs (dep, c1)).1 =
        (scoreLevel g dive cur w refs (dep, c2)).1 := by
  intro refs
  induction refs with
  | nil => intro cur w dep c1 c2; rfl
  | cons ref rest ih =>
    intro cur w dep c1 c2
    simp only [scoreLevel]
    cases hl : lookupRef g cur.repository cur.goModPath ref with
    | none => exact ih cur w dep c1 c2
    | some refMod =>
      by_cases hmem : refMod ∈ dep
      · simp only [hmem, if_true]
        exact ih cur w dep c1 c2
      · simp only [hmem, if_false]
        have hd := hdep refMod w dep c1 c2
        rcases hdc1 : dive refMod w (dep, c1) with ⟨dep1, cc1⟩
        rcases hdc2 : dive refMod w (dep, c2) with ⟨dep2, cc2⟩
        rw [hdc1, hdc2] at hd
        simp only at hd
        subst hd
        exact ih cur w dep1 cc1 cc2

theorem scoreLevel_add (g : List GoModule) (dive : GoModule → Int → ScoreSt → ScoreSt)
    (hdep : ∀ refMod w dep c1 c2, (dive refMod w (dep, c1)).1 = (dive refMod w (dep, c2)).1)
    (hadd : ∀ refMod w dep c m, lookupScore (dive refMod w (dep, c)).2 m =
      lookupScore c m + lookupScore (dive refMod w (dep, [])).2 m) :
    ∀ (refs : List String) (cur : GoModule) (w : Int) (dep : List GoModule)
      (c : List (GoModule × Int)) (m : GoModule),
      lookupScore (scoreLevel g dive cur w refs (dep, c)).2 m =
        lookupScore c m + lookupScore (scoreLevel g dive cur w refs (dep, [])).2 m := by
  intro refs
  induction refs with
  | nil => intro cur w dep c m; simp [scoreLevel, lookupScore]
  | cons ref rest ih =>
    intro cur w dep c m
    simp only [scoreLevel]
    cases hl : lookupRef g cur.repository cur.goModPath ref with
    | none => exact ih cur w dep c m
    | some refMod =>
      by_cases hmem : refMod ∈ dep
      · simp only [hmem, if_true]
        exact ih cur w dep c m
      · simp only [hmem, if_false]
        have hd := hdep refMod w dep c []
        have ha := hadd refMod w dep c m
        rcases hdc1 : dive refMod w (dep, c) with ⟨dep1, cc1⟩
        rcases hdc2 : dive refMod w (dep, []) with ⟨dep2, cc2⟩
        rw [hdc1, hdc2] at hd
        simp only at hd
        subst hd
        rw [hdc1, hdc2] at ha
        simp only at ha
        rw [ih cur w dep1 cc1 m, ih cur w dep1 cc2 m, ha]
        omega

theorem scoreLevel_mono (g : List GoModule) (dive : GoModule → Int → ScoreSt → ScoreSt)
    (hmono : ∀ refMod w st, st.1 ⊆ (dive refMod w st).1) :
    ∀ (refs : List String) (cur : GoModule) (w : Int) (st : ScoreSt),
      st.1 ⊆ (scoreLevel g dive cur w refs st).1 := by
  intro refs
  induction refs with
  | nil => intro cur w st; exact fun x hx => hx
  | cons ref rest ih =>
    intro cur w st
    simp only [scoreLevel]
    cases hl : lookupRef g cur.repository cur.goModPath ref with
    | none => exact ih cur w st
    | some refMod =>
      by_cases hmem : refMod ∈ st.1
      · simp only [hmem, if_true]
        exact ih cur w st
      · simp only [hmem, if_false]
        exact List.Subset.trans (hmono refMod w st) (ih cur w (dive refMod w st))

theorem scoreLevel_frozen (g : List GoModule) (dive : GoModule → Int → ScoreSt → ScoreSt)
    (m0 : GoModule)
    (hmono : ∀ refMod w st, st.1 ⊆ (dive refMod w st).1)
    (hfro : ∀ refMod w st, refMod ∉ st.1 → m0 ∈ st.1 →
      lookupScore (dive refMod w st).2 m0 = lookupScore st.2 m0) :
    ∀ (refs : List String) (cur : GoModule) (w : Int) (st : ScoreSt), m0 ∈ st.1 →
      lookupScore (scoreLevel g dive cur w refs st).2 m0 = lookupScore st.2 m0 := by
  intro refs
  induction refs with
  | nil => intro cur w st _; rfl
  | cons ref rest ih =>
    intro cur w st hm0
    simp only [scoreLevel]
    cases hl : lookupRef g cur.repository cur.goModPath ref with
    | none => exact ih cur w st hm0
    | some refMod =>
      by_cases hmem : refMod ∈ st.1
      · simp only [hmem, if_true]
        exact ih cur w st hm0
      · simp only [hmem, if_false]
        rw [ih cur w (dive refMod w st) (hmono refMod w st hm0)]
        exact hfro refMod w st hmem hm0

theorem scoreLevel_root_untouched (g : List GoModule)
    (dive : GoModule → Int → ScoreSt → ScoreSt) (m0 : GoModule)
    (hroot : ∀ cur ∈ g, ∀ tok ∈ cur.refers, ∀ refMod ∈ g,
      lookupRef g cur.repository cur.goModPath tok = some refMod → refMod.IsRoot = false)
    (hdive : ∀ refMod w st, refMod ∈ g → refMod.IsRoot = false →
      lookupScore (dive refMod w st).2 m0 = lookupScore st.2 m0) :
    ∀ (refs : List String) (cur : GoModule) (w : Int) (st : ScoreSt), cur ∈ g →
      (∀ t ∈ refs, t ∈ cur.refers) →
      lookupScore (scoreLevel g dive cur w refs st).2 m0 = lookupScore st.2 m0 := by
  intro refs
  induction refs with
  | nil => intro cur w st _ _; rfl
  | cons ref rest ih =>
    intro cur w st hcur hsub
    have hsubrest : ∀ t ∈ rest, t ∈ cur.refers := fun t ht => hsub t (List.mem_cons_of_mem _ ht)
    simp only [scoreLevel]
    cases hl : lookupRef g cur.repository cur.goModPath ref with
    | none => exact ih cur w st hcur hsubrest
    | some refMod =>
      by_cases hmem : refMod ∈ st.1
      · simp only [hmem, if_true]
        exact ih cur w st hcur hsubrest
      · simp only [hmem, if_false]
        have hrg : refMod ∈ g := lookupRef_mem hl
        have hrfree : refMod.IsRoot = false :=
          hroot cur hcur ref (hsub ref (List.mem_cons_self _ _)) refMod hrg hl
        rw [ih cur w (dive refMod w st) hcur hsubrest]
        exact hdive refMod w st hrg hrfree

theorem scoreRefs_dep_cache_free (g : List GoModule) :
    ∀ (fuel : Nat) (cur : GoModule) (w : Int) (refs : List String) (dep : List GoModule)
      (c1 c2 : List (GoModule × Int)),
      (scoreRefs g fuel cur w refs (dep, c1)).1 = (scoreRefs g fuel cur w refs (dep, c2)).1 := by
  intro fuel
  induction fuel with
  | zero =>
    intro cur w refs dep c1 c2
    exact scoreLevel_dep_cache_free g _ (fun _ _ _ _ _ => rfl) refs cur w dep c1 c2
  | succ f ih =>
    intro cur w refs dep c1 c2
    refine scoreLevel_dep_cache_free g _ ?_ refs cur w dep c1 c2
    intro refMod w' dep' c1' c2'
    exact ih refMod (w' + 1) refMod.refers (refMod :: dep') (bump c1' refMod w')
      (bump c2' refMod w')

theorem scoreRefs_add (g : List GoModule) :
    ∀ (fuel : Nat) (cur : GoModule) (w : Int) (refs : List String) (dep : List GoModule)
      (c : List (GoModule × Int)) (m : GoModule),
      lookupScore (scoreRefs g fuel cur w refs (dep, c)).2 m =
        lookupScore c m + lookupScore (scoreRefs g fuel cur w refs (dep, [])).2 m := by
  intro fuel
  induction fuel with
  | zero =>
    intro cur w refs dep c m
    refine scoreLevel_add g _ (fun _ _ _ _ _ => rfl) ?_ refs cur w dep c m
    intro refMod w' dep' c' m'
    simp only
    rw [lookupScore_bump, lookupScore_bump]
    simp [lookupScore]
  | succ f ih =>
    intro cur w refs dep c m
    refine scoreLevel_add g _ ?_ ?_ refs cur w dep c m
    · intro refMod w' dep' c1' c2'
      exact scoreRefs_dep_cache_free g f refMod (w' + 1) refMod.refers (refMod :: dep')
        (bump c1' refMod w') (bump c2' refMod w')
    · intro refMod w' dep' c' m'
      simp only
      rw [ih refMod (w' + 1) refMod.refers (refMod :: dep') (bump c' refMod w') m',
        ih refMod (w' + 1) refMod.refers (refMod :: dep') (bump [] refMod w') m',
        lookupScore_bump, lookupScore_bump]
      simp [lookupScore]
      omega

theorem scoreRefs_mono (g : List GoModule) :
    ∀ (fuel : Nat) (cur : GoModule) (w : Int) (refs : List String) (st : ScoreSt),
      st.1 ⊆ (scoreRefs g fuel cur w refs st).1 := by
  intro fuel
  induction fuel with
  | zero =>
    intro cur w refs st
    refine scoreLevel_mono g _ ?_ refs cur w st
    intro refMod w' st'
    exact fun x hx => List.mem_cons_of_mem _ hx
  | succ f ih =>
    intro cur w refs st
    refine scoreLevel_mono g _ ?_ refs cur w st
    intro refMod w' st'
    intro x hx
    exact ih refMod (w' + 1) refMod.refers (refMod :: st'.1, bump st'.2 refMod w')
      (List.mem_cons_of_mem refMod hx)

theorem scoreRefs_frozen (g : List GoModule) (m0 : GoModule) :
    ∀ (fuel : Nat) (cur : GoModule) (w : Int) (refs : List String) (st : ScoreSt),
      m0 ∈ st.1 →
      lookupScore (scoreRefs g fuel cur w refs st).2 m0 = lookupScore st.2 m0 := by
  intro fuel
  induction fuel with
  | zero =>
    intro cur w refs st hm0
    refine scoreLevel_frozen g _ m0 ?_ ?_ refs cur w st hm0
    · intro refMod w' st'
      exact fun x hx => List.mem_cons_of_mem _ hx
    · intro refMod w' st' hnm hm
      simp only
      rw [lookupScore_bump]
      have : ¬ m0 = refMod := fun h => hnm (h ▸ hm)
      simp [this]
  | succ f ih =>
    intro cur w refs st hm0
    refine scoreLevel_frozen g _ m0 ?_ ?_ refs cur w st hm0
    · intro refMod w' st'
      intro x hx
      exact scoreRefs_mono g f refMod (w' + 1) refMod.refers
        (refMod :: st'.1, bump st'.2 refMod w') (List.mem_cons_of_mem refMod hx)
    · intro refMod w' st' hnm hm
      rw [ih refMod (w' + 1) refMod.refers (refMod :: st'.1, bump st'.2 refMod w')
        (List.mem_cons_of_mem _ hm)]
      rw [lookupScore_bump]
      have : ¬ m0 = refMod := fun h => hnm (h ▸ hm)
      simp [this]

theorem scoreRefs_root_untouched (g : List GoModule) (m0 : GoModule)
    (hm0 : m0.IsRoot = true)
    (hroot : ∀ cur ∈ g, ∀ tok ∈ cur.refers, ∀ refMod ∈ g,
      lookupRef g cur.repository cur.goModPath tok = some refMod → refMod.IsRoot = false) :
    ∀ (fuel : Nat) (cur : GoModule) (w : Int) (refs : List String) (st : ScoreSt),
      cur ∈ g → (∀ t ∈ refs, t ∈ cur.refers) →
      lookupScore (scoreRefs g fuel cur w refs st).2 m0 = lookupScore st.2 m0 := by
  intro fuel
  induction fuel with
  | zero =>
    intro cur w refs st hcur hsub
    refine scoreLevel_root_untouched g _ m0 hroot ?_ refs cur w st hcur hsub
    intro refMod w' st' _ hfree
    simp only
    rw [lookupScore_bump]
    have : ¬ m0 = refMod := fun h => by rw [h, hfree] at hm0; cases hm0
    simp [this]
  | succ f ih =>
    intro cur w refs st hcur hsub
    refine scoreLevel_root_untouched g _ m0 hroot ?_ refs cur w st hcur hsub
    intro refMod w' st' hrg hfree
    rw [ih refMod (w' + 1) refMod.refers (refMod :: st'.1, bump st'.2 refMod w') hrg
      (fun t ht => ht)]
    rw [lookupScore_bump]
    have : ¬ m0 = refMod := fun h => by rw [h, hfree] at hm0; cases hm0
    simp [this]

theorem scoreRootStep_nonroot_add (g : List GoModule) (repos : List Repository)
    (root m : GoModule) (c : List (GoModule × Int)) (hne : root ≠ m) :
    lookupScore (scoreRootStep g repos c root) m =
      lookupScore c m + lookupScore (scoreRootStep g repos [] root) m := by
  unfold scoreRootStep
  cases hf : repos.find? (fun rp => rp.nameWithOwner == root.repository) with
  | none => simp [lookupScore]
  | some rp =>
    unfold scoreGoModule
    rw [scoreRefs_add g g.length root (rp.weight + 1) root.refers [root]
        (setScore c root rp.weight) m,
      scoreRefs_add g g.length root (rp.weight + 1) root.refers [root]
        (setScore [] root rp.weight) m,
      lookupScore_setScore, lookupScore_setScore]
    have : ¬ m = root := fun h => hne h.symm
    simp [this, lookupScore]

theorem scoreRootStep_root_value (g : List GoModule) (repos : List Repository)
    (m0 root : GoModule) (c : List (GoModule × Int)) (hrootg : root ∈ g)
    (hm0 : m0.IsRoot = true)
    (hroot : ∀ cur ∈ g, ∀ tok ∈ cur.refers, ∀ refMod ∈ g,
      lookupRef g cur.repository cur.goModPath tok = some refMod → refMod.IsRoot = false) :
    lookupScore (scoreRootStep g repos c root) m0 =
      match repos.find? (fun rp => rp.nameWithOwner == root.repository) with
      | none => lookupScore c m0
      | some rp => if m0 = root then rp.weight else lookupScore c m0 := by
  unfold scoreRootStep
  cases hf : repos.find? (fun rp => rp.nameWithOwner == root.repository) with
  | none => rfl
  | some rp =>
    unfold scoreGoModule
    by_cases hm : m0 = root
    · subst hm
      rw [scoreRefs_frozen g m0 g.length m0 (rp.weight + 1) m0.refers
        ([m0], setScore c m0 rp.weight) (List.mem_singleton.mpr rfl)]
      rw [lookupScore_setScore]
    · rw [scoreRefs_root_untouched g m0 hm0 hroot g.length root (rp.weight + 1) root.refers
        ([root], setScore c root rp.weight) hrootg (fun t ht => ht)]
      rw [lookupScore_setScore]

theorem ScoreRoots_nonroot_add (g : List GoModule) (repos : List Repository)
    (m : GoModule) (hm : m.IsRoot = false) :
    ∀ (roots : List GoModule) (c : List (GoModule × Int)),
      (∀ r ∈ roots, r.IsRoot = true) →
      lookupScore (ScoreRoots g repos roots c) m =
        lookupScore c m + lookupScore (ScoreRoots g repos roots []) m := by
  intro roots
  induction roots with
  | nil => intro c _; simp [ScoreRoots, lookupScore]
  | cons r rs ih =>
    intro c hall
    have hr : r.IsRoot = true := hall r (List.mem_cons_self _ _)
    have hrm : r ≠ m := fun h => by rw [h, hm] at hr; cases hr
    have hallrs : ∀ x ∈ rs, x.IsRoot = true := fun x hx => hall x (List.mem_cons_of_mem _ hx)
    simp only [ScoreRoots, List.foldl_cons]
    have h1 := ih (scoreRootStep g repos c r) hallrs
    have h2 := ih (scoreRootStep g repos [] r) hallrs
    simp only [ScoreRoots] at h1 h2
    rw [h1, h2, scoreRootStep_nonroot_add g repos r m c hrm]
    omega

theorem ScoreRoots_root_value (g : List GoModule) (repos : List Repository)
    (m0 : GoModule) (hm0 : m0.IsRoot = true)
    (hroot : ∀ cur ∈ g, ∀ tok ∈ cur.refers, ∀ refMod ∈ g,
      lookupRef g cur.repository cur.goModPath tok = some refMod → refMod.IsRoot = false) :
    ∀ (roots : List GoModule) (c : List (GoModule × Int)),
      (∀ r ∈ roots, r ∈ g ∧ r.IsRoot = true) →
      lookupScore (ScoreRoots g repos roots c) m0 =
        if m0 ∈ roots ∧ (repos.find? (fun rp => rp.nameWithOwner == m0.repository)).isSome
        then weightOf repos m0 else lookupScore c m0 := by
  intro roots
  induction roots with
  | nil => intro c _; simp [ScoreRoots]
  | cons r rs ih =>
    intro c hall
    have hrg : r ∈ g := (hall r (List.mem_cons_self _ _)).1
    have hallrs : ∀ x ∈ rs, x ∈ g ∧ x.IsRoot = true :=
      fun x hx => hall x (List.mem_cons_of_mem _ hx)
    simp only [ScoreRoots, List.foldl_cons]
    have hstep := scoreRootStep_root_value g repos m0 r c hrg hm0 hroot
    have hfold := ih (scoreRootStep g repos c r) hallrs
    simp only [ScoreRoots] at hfold
    rw [hfold]
    by_cases hm : m0 = r
    · subst hm
      cases hf : repos.find? (fun rp => rp.nameWithOwner == m0.repository) with
      | none =>
        rw [hf] at hstep
        simp only [hf, Option.isSome_none, Bool.false_eq_true, and_false, if_false]
        simpa using hstep
      | some rp =>
        rw [hf] at hstep
        simp at hstep
        have hwof : weightOf repos m0 = rp.weight := by
          unfold weightOf
          rw [hf]
        simp only [hf, Option.isSome_some, and_true]
        rw [if_pos (List.mem_cons_self _ _)]
        by_cases hmem : m0 ∈ rs
        · rw [if_pos hmem]
        · rw [if_neg hmem, hstep, hwof]
    · have hstepval : lookupScore (scoreRootStep g repos c r) m0 = lookupScore c m0 := by
        rw [hstep]
        cases hf : repos.find? (fun rp => rp.nameWithOwner == r.repository) <;> simp [hf, hm]
      rw [hstepval]
      have hmemiff : (m0 ∈ r :: rs) ↔ (m0 ∈ rs) := by
        constructor
        · intro h
          rcases List.mem_cons.mp h with h | h
          · exact absurd h hm
          · exact h
        · exact fun h => List.mem_cons_of_mem _ h
      by_cases hmem : m0 ∈ rs ∧ (repos.find?
          (fun rp => rp.nameWithOwner == m0.repository)).isSome
      · rw [if_pos hmem, if_pos ⟨hmemiff.mpr hmem.1, hmem.2⟩]
      · rw [if_neg hmem, if_neg (fun h => hmem ⟨hmemiff.mp h.1, h.2⟩)]

/-! ## Claims -/

/-- C1: for a repository of weight 1 whose single manifest declares module
A and whose dependency-graph command emits exactly "A@v1 B@v1" and
"B@v1 C@v1", the scan-and-score pipeline reports score 1 for name A,
2 for B and 3 for C, ranked descending. -/
theorem c1_chain_pipeline_scores :
    findScore (aggregate (Score chainMods repoW1 [])) "A" = some 1 ∧
    findScore (aggregate (Score chainMods repoW1 [])) "B" = some 2 ∧
    findScore (aggregate (Score chainMods repoW1 [])) "C" = some 3 ∧
    aggregate (Score chainMods repoW1 []) =
      [{ name := "C", repository := "C", score := 3 },
       { name := "B", repository := "B", score := 2 },
       { name := "A", repository := "A", score := 1 }] := by
  decide

/-- C2 counterexample: on the cyclic example (edges A@v1→B@v1 and
B@v1→A@v1) the pipeline does not report score 1 for A and 2 for B; both
modules have a referer, so storage holds no root and nothing is scored. -/
theorem c2_cycle_counterexample :
    ¬ (findScore (aggregate (Score cycleMods repoW1 [])) "A" = some 1 ∧
       findScore (aggregate (Score cycleMods repoW1 [])) "B" = some 2) := by
  decide

/-- C2 amended: in the two-node cycle each module records the other as a
referer, so neither is a root, FindRootGoModules returns nothing and the
pipeline's ranked result is empty; the visited-set rule itself holds: a
Refers entry resolving to a module already in the current root's visited
set is skipped with no score added and no recursion through it. -/
theorem c2_cycle_amended :
    cycleMods.all (fun m => !m.IsRoot) = true ∧
    FindRootGoModules cycleMods = [] ∧
    aggregate (Score cycleMods repoW1 []) = [] ∧
    ∀ (g : List GoModule) (fuel : Nat) (cur : GoModule) (w : Int) (ref : String)
      (rest : List String) (st : ScoreSt) (refMod : GoModule),
      lookupRef g cur.repository cur.goModPath ref = some refMod → refMod ∈ st.1 →
      scoreRefs g fuel cur w (ref :: rest) st = scoreRefs g fuel cur w rest st := by
  refine ⟨by decide, by decide, by decide, ?_⟩
  intro g fuel cur w ref rest st refMod h1 h2
  cases fuel with
  | zero => exact scoreLevel_skip h1 h2
  | succ f => exact scoreLevel_skip h1 h2

/-- C2 witness: the amended skip rule applied on the cyclic example's
stored graph, skipping the already-visited B@v1 node. -/
theorem c2_cycle_amended_witness :
    scoreRefs cycleMods 2 cycleModA 2 ["B@v1"] ([cycleModB], []) =
      scoreRefs cycleMods 2 cycleModA 2 [] ([cycleModB], []) :=
  c2_cycle_amended.2.2.2 cycleMods 2 cycleModA 2 "B@v1" [] ([cycleModB], []) cycleModB
    (by decide) (by decide)

/-- C3 counterexample: with the modules write succeeding and the status
write failing, scanRepo's persistence step leaves the scanned modules
recorded while the newer head is not, so the two writes are not a single
logical unit. -/
theorem c3_persistence_counterexample :
    lookupStoredMods (persistScanResults true false ⟨[], []⟩ "org/repo1" chainMods
      newHeadStatus).1 "org/repo1" = some chainMods ∧
    lookupStoredRepo (persistScanResults true false ⟨[], []⟩ "org/repo1" chainMods
      newHeadStatus).1 "org/repo1" = none := by
  decide

/-- C3 amended: the persistence step orders the two storage calls so that
the updated status (new head) is written only after the modules write
succeeded: whenever the final state records the new status, it records the
corresponding modules; the converse direction fails (see the
counterexample). -/
theorem c3_persistence_amended :
    ∀ (modsOk statusOk : Bool) (st : StorageState) (repoName : String)
      (mods : List GoModule) (rs : RepositoryStatus),
      lookupStoredRepo st rs.nameWithOwner ≠ some rs →
      lookupStoredRepo (persistScanResults modsOk statusOk st repoName mods rs).1
        rs.nameWithOwner = some rs →
      lookupStoredMods (persistScanResults modsOk statusOk st repoName mods rs).1
        repoName = some mods := by
  intro modsOk statusOk st repoName mods rs hne hrec
  cases modsOk with
  | false =>
    simp [persistScanResults, InsertOrUpdateGoModules] at hrec
    exact absurd hrec hne
  | true =>
    cases statusOk with
    | false =>
      simp [persistScanResults, InsertOrUpdateGoModules, InsertOrUpdateRepository,
        lookupStoredRepo] at hrec
      exact absurd hrec hne
    | true =>
      simp [persistScanResults, InsertOrUpdateGoModules, InsertOrUpdateRepository,
        lookupStoredMods]
      exact lookupAssoc_setAssoc_self st.goModules repoName mods

/-- C3 witness: the amended ordering guarantee applied at the concrete
successful persistence of the chain example. -/
theorem c3_persistence_amended_witness :
    lookupStoredMods (persistScanResults true true ⟨[], []⟩ "org/repo1" chainMods
      newHeadStatus).1 "org/repo1" = some chainMods :=
  c3_persistence_amended true true ⟨[], []⟩ "org/repo1" chainMods newHeadStatus
    (by decide) (by decide)

/-- C5 counterexample: with every cascade step failing and an empty cache,
resolving the four-segment name github.com/cncf/udpa/go returns its
three-segment normalization, not the original name. -/
theorem c5_fallback_counterexample :
    getHostedRepositoryByNameWithCache (fun _ => "") (fun _ => "") (fun _ => "") (fun _ => "")
      "github.com/cncf/udpa/go" ≠ "github.com/cncf/udpa/go" := by
  decide

/-- C5 amended: hosted-repository resolution never fails: when the cache
misses and all three cascade steps yield nothing, the resolved value is
the normalized module name (the input truncated to at most three path
segments), which equals the original input only when it has at most three
segments. -/
theorem c5_fallback_amended :
    ∀ (cache goProxy goPkgIn goImportMetaTag : String → String) (name : String),
      cache (normalizeGoModuleName name) = "" →
      goProxy (normalizeGoModuleName name) = "" →
      goPkgIn (normalizeGoModuleName name) = "" →
      goImportMetaTag (normalizeGoModuleName name) = "" →
      getHostedRepositoryByNameWithCache cache goProxy goPkgIn goImportMetaTag name =
        normalizeGoModuleName name := by
  intro cache goProxy goPkgIn goImportMetaTag name h0 h1 h2 h3
  simp [getHostedRepositoryByNameWithCache, getHostedRepositoryByName, h0, h1, h2, h3]

/-- C5 witness: the amended fallback applied at the concrete four-segment
name. -/
theorem c5_fallback_amended_witness :
    getHostedRepositoryByNameWithCache (fun _ => "") (fun _ => "") (fun _ => "") (fun _ => "")
      "github.com/cncf/udpa/go" = normalizeGoModuleName "github.com/cncf/udpa/go" :=
  c5_fallback_amended (fun _ => "") (fun _ => "") (fun _ => "") (fun _ => "")
    "github.com/cncf/udpa/go" rfl rfl rfl rfl

/-- C7 counterexample: the token A@v1, whose name part equals the owning
manifest's declared module name A, is not excluded: newGoModule resolves
it to a module node rather than to nil. -/
theorem c7_exclusion_counterexample :
    splitModNameAndVersion "A@v1" = Except.ok ("A", "v1") ∧
    (newGoModule hostedOffline "org/repo1" "go.mod" "A" "A@v1" []).1 ≠ Except.ok none := by
  decide

/-- C7 amended: the own-module exclusion fires only when the entire token
equals the declared module name (the versionless form the graph command
emits for the main module); the go/toolchain keyword exclusion is checked
on the name part after splitting, so it applies to any version suffix,
while a bare keyword token without an @ fails token splitting and yields
an error rather than a silent nil. -/
theorem c7_exclusion_amended :
    ∀ (hosted : String → String) (repoName goModPath rootModName tok : String)
      (cache : List (String × GoModule)),
      (tok = rootModName →
        newGoModule hosted repoName goModPath rootModName tok cache = (Except.ok none, cache)) ∧
      (lookupCache cache tok = none →
        ∀ n v, splitModNameAndVersion tok = Except.ok (n, v) →
        (n = "go" ∨ n = "toolchain") → tok ≠ rootModName →
        newGoModule hosted repoName goModPath rootModName tok cache = (Except.ok none, cache)) ∧
      (lookupCache cache tok = none → tok ≠ rootModName →
        splitModNameAndVersion tok = Except.error ("unexpected go module format: " ++ tok) →
        newGoModule hosted repoName goModPath rootModName tok cache =
          (Except.error ("unexpected go module format: " ++ tok), cache)) := by
  intro hosted repoName goModPath rootModName tok cache
  refine ⟨?_, ?_, ?_⟩
  · intro h
    subst h
    simp [newGoModule]
  · intro hcache n v hsplit hkw hne
    have hbeq : (rootModName == tok) = false := by
      simp only [beq_eq_false_iff_ne]
      exact fun hh => hne hh.symm
    rcases hkw with hkw | hkw <;> subst hkw <;>
      simp [newGoModule, hbeq, hcache, hsplit]
  · intro hcache hne hsplit
    have hbeq : (rootModName == tok) = false := by
      simp only [beq_eq_false_iff_ne]
      exact fun hh => hne hh.symm
    simp [newGoModule, hbeq, hcache, hsplit]

/-- C7 witness: the amended exclusions applied concretely: the exact
declared-name token A is excluded, and the keyword token go@1.21 is
excluded. -/
theorem c7_exclusion_amended_witness :
    newGoModule hostedOffline "org/repo1" "go.mod" "A" "A" [] = (Except.ok none, []) ∧
    newGoModule hostedOffline "org/repo1" "go.mod" "A" "go@1.21" [] = (Except.ok none, []) :=
  ⟨(c7_exclusion_amended hostedOffline "org/repo1" "go.mod" "A" "A" []).1 rfl,
   (c7_exclusion_amended hostedOffline "org/repo1" "go.mod" "A" "go@1.21" []).2.1 rfl
     "go" "1.21" (by decide) (Or.inl rfl) (by decide)⟩

/-- C9 counterexample: on the one-edge graph with repository weight 1, the
root name A is reported with score 1 by both the first and the second
Score call on the same ModRank: the root's cache entry is assigned (not
accumulated), so the second call's report for A is not twice the first. -/
theorem c9_double_counterexample :
    findScore (aggregate (Score edgeMods repoW1 (Score edgeMods repoW1 []))) "A" ≠
      (findScore (aggregate (Score edgeMods repoW1 [])) "A").map (fun s => 2 * s) := by
  decide

/-- C4 counterexample: the ranked output is assembled by iterating Go maps
whose order is not deterministic; two iteration orders of the same
scoredModCache (here the two-repository graph, where names tie at scores
1 and 2) yield differently ordered ranked output, so re-running Score is
not byte-identical. -/
theorem c4_order_counterexample :
    twoRepoCacheRotated.Perm twoRepoCache ∧
    aggregate twoRepoCacheRotated ≠ aggregate twoRepoCache := by
  refine ⟨by decide, by decide⟩

/-- C4 amended: re-running the Scoring Engine over an unchanged persisted
graph is deterministic in content but not byte-identical: whatever
iteration order the scoredModCache map yields, the reported score of every
module name is the same (the per-name sum of the cache), and the output is
always sorted by descending score; the order among equal scores (and which
identity's Repository field a name carries) follows the map iteration
order and is therefore not reproducible. -/
theorem c4_order_amended :
    ∀ (e1 e2 : List (GoModule × Int)), e1.Perm e2 →
      (∀ n, scoreOf (aggregate e1) n = scoreOf (aggregate e2) n) ∧
      (aggregate e1).Pairwise (fun a b => b.score ≤ a.score) := by
  intro e1 e2 hperm
  refine ⟨?_, ?_⟩
  · intro n
    rw [aggregate_scoreOf, aggregate_scoreOf]
    exact nameTotal_perm hperm n
  · exact sortByScoreDesc_pairwise _

/-- C4 witness: the two iteration orders of the two-repository cache agree
on every name's score (name A shown) and the first order's output is
sorted descending. -/
theorem c4_order_amended_witness :
    scoreOf (aggregate twoRepoCache) "A" = scoreOf (aggregate twoRepoCacheRotated) "A" ∧
    (aggregate twoRepoCache).Pairwise (fun a b => b.score ≤ a.score) :=
  ⟨(c4_order_amended twoRepoCache twoRepoCacheRotated (by decide)).1 "A",
   (c4_order_amended twoRepoCache twoRepoCacheRotated (by decide)).2⟩

/-- C6: a non-empty graph-output line that does not split into exactly two
space-separated tokens makes scanGoModule return an empty module list and
no error (modules parsed from earlier lines of the manifest included), and
the enclosing repository scan of the remaining manifests is unaffected:
the manifest list with the malformed manifest scans to the same result as
the list without it. -/
theorem c6_malformed_aborts_manifest_only :
    ∀ (hosted : String → String) (repoName path modName out : String)
      (pre post : List (String × String × String)) (l : String),
      l ∈ splitOnChar '\n' out → l ≠ "" → (splitOnChar ' ' l).length ≠ 2 →
      scanGoModule hosted repoName path modName out = Except.ok [] ∧
      scanManifests hosted repoName (pre ++ (path, modName, out) :: post) =
        scanManifests hosted repoName (pre ++ post) := by
  intro hosted repoName path modName out pre post l hmem hne hlen
  have habort : scanGoModule hosted repoName path modName out = Except.ok [] := by
    unfold scanGoModule
    rw [processGraphLines_malformed hosted repoName path modName (splitOnChar '\n' out) []
      l hmem hne (length_ne_two_of_ne_pair hlen)]
  exact ⟨habort, scanManifests_cons_empty hosted repoName (path, modName, out) post habort pre⟩

/-- C6 witness: the manifest whose second output line is the single token
BAD scans to no modules and no error, and scanning it next to a healthy
manifest leaves that manifest's result unchanged. -/
theorem c6_malformed_aborts_manifest_only_witness :
    scanGoModule hostedOffline "org/repo1" "go.mod" "A" "A@v1 B@v1\nBAD" = Except.ok [] ∧
    scanManifests hostedOffline "org/repo1"
        [("sub/go.mod", "X", "C@v1 D@v1"), ("go.mod", "A", "A@v1 B@v1\nBAD")] =
      scanManifests hostedOffline "org/repo1" [("sub/go.mod", "X", "C@v1 D@v1")] :=
  c6_malformed_aborts_manifest_only hostedOffline "org/repo1" "go.mod" "A" "A@v1 B@v1\nBAD"
    [("sub/go.mod", "X", "C@v1 D@v1")] [] "BAD" (by decide) (by decide) (by decide)

/-- C8: every module produced by a completed manifest scan has its Refers
and Referers sequences strictly sorted: the entries are the name@version
keys of the referenced modules, accumulated duplicate-free in unordered
sets during construction and sorted by setupReference, so the sequences
are strictly ascending in the lexicographic string order. -/
theorem c8_references_strictly_sorted :
    ∀ (hosted : String → String) (repoName path modName out : String)
      (mods : List GoModule) (m : GoModule),
      scanGoModule hosted repoName path modName out = Except.ok mods → m ∈ mods →
      m.refers.Pairwise (· < ·) ∧ m.referers.Pairwise (· < ·) := by
  intro hosted repoName path modName out mods m hscan hm
  unfold scanGoModule at hscan
  cases hp : processGraphLines hosted repoName path modName (splitOnChar '\n' out) [] with
  | none =>
    rw [hp] at hscan
    simp only [Except.ok.injEq] at hscan
    rw [← hscan] at hm
    cases hm
  | some cache =>
    rw [hp] at hscan
    simp only [Except.ok.injEq] at hscan
    rw [← hscan] at hm
    rcases List.mem_map.mp hm with ⟨kv, hkv, heq⟩
    have hwf : cacheWF cache :=
      cacheWF_processGraphLines hosted repoName path modName _ [] cache (by intro kv h; cases h) hp
    rcases hwf kv hkv with ⟨h1, h2⟩
    rw [← heq]
    exact ⟨sortStrings_pairwise_lt _ h1, sortStrings_pairwise_lt _ h2⟩

/-- C8 witness: the middle module B@v1 of the chain example, scanned with
one Refers and one Referers entry, has both sequences strictly sorted. -/
theorem c8_references_strictly_sorted_witness :
    (chainMods.getD 1 default).refers.Pairwise (· < ·) ∧
    (chainMods.getD 1 default).referers.Pairwise (· < ·) :=
  c8_references_strictly_sorted hostedOffline "org/repo1" "go.mod" "A" chainOut chainMods
    (chainMods.getD 1 default) (by decide) (by decide)

/-- C9 amended: Score is indeed not idempotent on one ModRank — the
scoredModCache is never reset — but the second call does not double every
score: the recursive walk only accumulates (so on any stored graph in
which no module's Refers entry resolves to a root, every non-root module's
cached score doubles), while each root's seed is re-assigned to its
repository weight, so a root's score after the second call equals its
score after the first, not twice it. -/
theorem c9_twice_amended :
    ∀ (g : List GoModule) (repos : List Repository) (m : GoModule),
      (∀ cur ∈ g, ∀ tok ∈ cur.refers, ∀ refMod ∈ g,
        lookupRef g cur.repository cur.goModPath tok = some refMod → refMod.IsRoot = false) →
      m ∈ g →
      lookupScore (Score g repos (Score g repos [])) m =
        if m.IsRoot then lookupScore (Score g repos []) m
        else 2 * lookupScore (Score g repos []) m := by
  intro g repos m hroot hm
  have hroots : ∀ r ∈ FindRootGoModules g, r ∈ g ∧ r.IsRoot = true := by
    intro r hr
    refine ⟨List.mem_of_mem_filter hr, ?_⟩
    simpa using List.of_mem_filter hr
  cases hR : m.IsRoot with
  | true =>
    rw [if_pos (by simp [hR])]
    unfold Score
    rw [ScoreRoots_root_value g repos m hR hroot (FindRootGoModules g)
        (ScoreRoots g repos (FindRootGoModules g) []) hroots,
      ScoreRoots_root_value g repos m hR hroot (FindRootGoModules g) [] hroots]
    by_cases hcond : m ∈ FindRootGoModules g ∧
        (repos.find? (fun rp => rp.nameWithOwner == m.repository)).isSome
    · rw [if_pos hcond, if_pos hcond]
    · rw [if_neg hcond, if_neg hcond]
  | false =>
    rw [if_neg (by simp [hR])]
    unfold Score
    rw [ScoreRoots_nonroot_add g repos m hR (FindRootGoModules g)
      (ScoreRoots g repos (FindRootGoModules g) []) (fun r hr => (hroots r hr).2)]
    omega

/-- C9 witness: on the one-edge stored graph, the second Score call leaves
the non-root module B@v1 at twice its single-call score. -/
theorem c9_twice_amended_witness :
    lookupScore (Score edgeMods repoW1 (Score edgeMods repoW1 [])) (edgeMods.getD 1 default) =
      if (edgeMods.getD 1 default).IsRoot then
        lookupScore (Score edgeMods repoW1 []) (edgeMods.getD 1 default)
      else 2 * lookupScore (Score edgeMods repoW1 []) (edgeMods.getD 1 default) :=
  c9_twice_amended edgeMods repoW1 (edgeMods.getD 1 default) (by decide) (by decide)

/-- C10: a stored root whose owning repository is not among the
repositories passed to Score is silently skipped by the root loop — the
scoredModCache is unchanged by that root, with no error — and Score is
exactly that loop over the stored roots. -/
theorem c10_unknown_repository_root_skipped :
    ∀ (g : List GoModule) (repos : List Repository) (c : List (GoModule × Int))
      (root : GoModule) (pre post : List GoModule),
      repos.find? (fun rp => rp.nameWithOwner == root.repository) = none →
      ScoreRoots g repos (pre ++ root :: post) c = ScoreRoots g repos (pre ++ post) c ∧
      Score g repos c = ScoreRoots g repos (FindRootGoModules g) c := by
  intro g repos c root pre post hfind
  refine ⟨?_, rfl⟩
  simp [ScoreRoots, List.foldl_append, scoreRootStep, hfind]

/-- C10 witness: the repository set naming only org/repo1 makes Score skip
a root owned by org/r1. -/
theorem c10_unknown_repository_root_skipped_witness :
    ScoreRoots chainMods repoW1 ([] ++ (twoRepoMods.getD 0 default) :: []) [] =
      ScoreRoots chainMods repoW1 ([] ++ []) [] :=
  (c10_unknown_repository_root_skipped chainMods repoW1 [] (twoRepoMods.getD 0 default) [] []
    (by decide)).1

end ModRankModel
